import Mathlib

set_option maxRecDepth 8000
set_option maxHeartbeats 1600000

/-!
# Verification of the spelling-corrector core (`spell.py`)

Shallow embedding of the matching engine of `NonEnglishSpellCorrector`:
phonetic normalization (`normalize_phonetic`), the composite similarity
scorer (`calculate_similarity_score`, built on `difflib.SequenceMatcher.ratio`
and a hand-written Jaro similarity), and the best-match search
(`find_best_match`) over the reference vocabulary.

Modelling choices:
* Tokens are `List Char`; Python `str.lower` is modelled by ASCII
  lowercasing (all inputs of interest are Latin-alphabet tokens).
* Python floats are modelled by exact rationals `ℚ`; the scorer's weights
  0.3/0.4/0.1/0.2 become 3/10, 4/10, 1/10, 2/10.
* The one fallible operation (the length-penalty division, which in Python
  raises `ZeroDivisionError` when both tokens are empty and they escape the
  equality short-circuit — in fact unreachable) is modelled with `Option`.
* Loops with non-structural recursion are written with an explicit fuel
  counter chosen large enough that it never runs out on the reachable
  inputs; this keeps every definition kernel-reducible.
-/

namespace Spell

/-- A token: one word, as a list of characters. -/
abbrev Token := List Char

/-- ASCII lowercasing of one character (model of Python `str.lower` on the
Latin alphabet). -/
def lowerChar (c : Char) : Char :=
  if 'A' ≤ c ∧ c ≤ 'Z' then Char.ofNat (c.toNat + 32) else c

/-- Lowercase a token. -/
def lowerStr (s : List Char) : List Char := s.map lowerChar

/-! ## `difflib.SequenceMatcher` (CPython), as used by `ratio()`

The repository calls `difflib.SequenceMatcher(None, x, y).ratio()`.  With
`isjunk = None` the junk set `bjunk` is empty, so the two junk-extension
loops of `find_longest_match` never run and the non-junk extension loops
test only character equality.  The `autojunk` heuristic does apply: when
`len(b) >= 200`, characters occurring more than `len(b) // 100 + 1` times
are dropped from the index `b2j`. -/

/-- Is `c` a "popular" element of `b` (dropped from `b2j` by autojunk)? -/
def popularChar (b : List Char) (c : Char) : Bool :=
  decide (200 ≤ b.length) && decide (b.length / 100 + 1 < b.count c)

/-- `b2j[c]`: the increasing list of indices of `c` in `b`, with popular
characters purged (autojunk). -/
def b2j (b : List Char) (c : Char) : List ℕ :=
  if popularChar b c then []
  else (List.range b.length).filter (fun j => b.getD j ' ' == c)

/-- One step of the inner loop of `find_longest_match`: given the previous
row's `j2len` and the current best `(besti, bestj, bestsize)`, process one
index `j` of row `i`.  `k = j2len.get(j-1, 0) + 1`; Python's `j2len.get(-1, 0)`
is `0`, hence the `j = 0` case. -/
def rowStep (j2len : ℕ → ℕ) (i : ℕ) (best : ℕ × ℕ × ℕ) (j : ℕ) : ℕ × ℕ × ℕ :=
  if best.2.2 < (if j = 0 then 0 else j2len (j - 1)) + 1 then
    (i + 1 - ((if j = 0 then 0 else j2len (j - 1)) + 1),
     j + 1 - ((if j = 0 then 0 else j2len (j - 1)) + 1),
     (if j = 0 then 0 else j2len (j - 1)) + 1)
  else best

/-- The new `j2len` dictionary after processing row `i`: entry `k` at each
processed index `j`, absent (0) elsewhere.  Within a row only the previous
row's dictionary is read, so the entries are order-independent. -/
def rowJ2len (j2len : ℕ → ℕ) (js : List ℕ) : ℕ → ℕ :=
  fun j => if j ∈ js then (if j = 0 then 0 else j2len (j - 1)) + 1 else 0

/-- The indices scanned in row `i`: `b2j[a[i]]` restricted to `[blo, bhi)`
(the source's `continue`/`break` on an increasing list). -/
def rowIndices (a b : List Char) (blo bhi i : ℕ) : List ℕ :=
  (b2j b (a.getD i ' ')).filter (fun j => decide (blo ≤ j) && decide (j < bhi))

/-- The dynamic-programming loop of `find_longest_match` over rows
`alo, …, ahi-1`, threading `(j2len, best)`. -/
def flmLoop (a b : List Char) (alo ahi blo bhi : ℕ) : (ℕ → ℕ) × (ℕ × ℕ × ℕ) :=
  (List.range' alo (ahi - alo)).foldl
    (fun st i =>
      let js := rowIndices a b blo bhi i
      (rowJ2len st.1 js, js.foldl (rowStep st.1 i) st.2))
    (fun _ => 0, (alo, blo, 0))

/-- Front extension of the best block (`while besti > alo and bestj > blo
and a[besti-1] == b[bestj-1]`); `bjunk` is empty here.  Structural
recursion on `besti`, which strictly decreases. -/
def extendFront (a b : List Char) (alo blo : ℕ) :
    ℕ → ℕ → ℕ → ℕ × ℕ × ℕ
  | 0, bestj, bestsize => (0, bestj, bestsize)
  | besti + 1, bestj, bestsize =>
    if alo < besti + 1 ∧ blo < bestj ∧
        a.getD besti ' ' = b.getD (bestj - 1) ' ' then
      extendFront a b alo blo besti (bestj - 1) (bestsize + 1)
    else (besti + 1, bestj, bestsize)

/-- Back extension (`while besti+bestsize < ahi and bestj+bestsize < bhi
and a[besti+bestsize] == b[bestj+bestsize]: bestsize += 1`), with fuel:
each iteration needs `besti + bestsize < ahi`, so fuel `ahi` never runs
out. -/
def extendBack (a b : List Char) (ahi bhi besti bestj : ℕ) :
    ℕ → ℕ → ℕ
  | 0, bestsize => bestsize
  | fuel + 1, bestsize =>
    if besti + bestsize < ahi ∧ bestj + bestsize < bhi ∧
        a.getD (besti + bestsize) ' ' = b.getD (bestj + bestsize) ' ' then
      extendBack a b ahi bhi besti bestj fuel (bestsize + 1)
    else bestsize

/-- `SequenceMatcher.find_longest_match(alo, ahi, blo, bhi)` (with
`isjunk = None`, so the junk-extension loops are no-ops). -/
def find_longest_match (a b : List Char) (alo ahi blo bhi : ℕ) : ℕ × ℕ × ℕ :=
  let best := (flmLoop a b alo ahi blo bhi).2
  let f := extendFront a b alo blo best.1 best.2.1 best.2.2
  (f.1, f.2.1, extendBack a b ahi bhi f.1 f.2.1 (ahi - (f.1 + f.2.2)) f.2.2)

/-- Total size of the matching blocks produced by `get_matching_blocks`
on the window `(alo, ahi, blo, bhi)` — the queue recursion of the source,
whose sort/merge post-passes do not change the total size, which is all
`ratio()` consumes.  Fuel `(ahi - alo) + (bhi - blo)` strictly decreases
across recursive calls, so it never runs out from the root call. -/
def matchSumAux (a b : List Char) : ℕ → ℕ → ℕ → ℕ → ℕ → ℕ
  | 0, _, _, _, _ => 0
  | fuel + 1, alo, ahi, blo, bhi =>
    let m := find_longest_match a b alo ahi blo bhi
    if m.2.2 = 0 then 0
    else
      (if alo < m.1 ∧ blo < m.2.1 then matchSumAux a b fuel alo m.1 blo m.2.1 else 0)
        + m.2.2 +
      (if m.1 + m.2.2 < ahi ∧ m.2.1 + m.2.2 < bhi then
        matchSumAux a b fuel (m.1 + m.2.2) ahi (m.2.1 + m.2.2) bhi else 0)

/-- Sum of the sizes of all matching blocks between `a` and `b`. -/
def matchSum (a b : List Char) : ℕ :=
  matchSumAux a b (a.length + b.length) 0 a.length 0 b.length

/-- `difflib.SequenceMatcher(None, a, b).ratio()`:
`2*M / (len(a)+len(b))`, and `1.0` when both are empty. -/
def ratioQ (a b : List Char) : ℚ :=
  if a.length + b.length = 0 then 1
  else (2 * matchSum a b : ℚ) / ((a.length : ℚ) + (b.length : ℚ))

/-! ## `_jaro_similarity` (`spell.py`, lines 60–90) -/

/-- Lower end of the matching window for position `i`:
`max(0, i - match_dist)` (the distance may be `-1`, hence `ℤ`). -/
def jaroLo (i : ℕ) (d : ℤ) : ℕ := ((i : ℤ) - d).toNat

/-- Upper end of the matching window: `min(i + match_dist + 1, len2)`. -/
def jaroHi (i : ℕ) (d : ℤ) (len2 : ℕ) : ℕ := (min ((i : ℤ) + d + 1) (len2 : ℤ)).toNat

/-- The inner matching loop: the first index `j` of the window with
`s2_matches[j]` still false and `s2[j] == s1[i]` (Python `break`s at the
first hit).  An out-of-range `j` reads the flag as `true`, so it can never
be selected. -/
def findJ (c : Char) (s2 : List Char) (s2m : List Bool) (lo hi : ℕ) : Option ℕ :=
  (List.range' lo (hi - lo)).find?
    (fun j => !(s2m.getD j true) && (s2.getD j ' ' == c))

/-- One step of the matching phase at position `i` of `s1`: state is
`(s1_matches so far, s2_matches, matches)`; `s1_matches[i]` is decided
exactly at step `i`, so it is appended. -/
def jaroMatchStep (s1 s2 : List Char) (d : ℤ)
    (st : List Bool × List Bool × ℕ) (i : ℕ) : List Bool × List Bool × ℕ :=
  match findJ (s1.getD i ' ') s2 st.2.1 (jaroLo i d) (jaroHi i d s2.length) with
  | some j => (st.1 ++ [true], st.2.1.set j true, st.2.2 + 1)
  | none => (st.1 ++ [false], st.2.1, st.2.2)

/-- The matching phase of `_jaro_similarity`. -/
def jaroMatch (s1 s2 : List Char) (d : ℤ) : List Bool × List Bool × ℕ :=
  (List.range s1.length).foldl (jaroMatchStep s1 s2 d)
    ([], List.replicate s2.length false, 0)

/-- `while not s2_matches[k]: k += 1` — the first flagged index `≥ k`.
Fuel `flags.length - k` suffices: the walk never leaves the flags in the
reachable states (there are as many `true`s in `s2_matches` as in
`s1_matches`). -/
def findTrue (flags : List Bool) : ℕ → ℕ → ℕ
  | 0, k => k
  | fuel + 1, k => if flags.getD k false then k else findTrue flags fuel (k + 1)

/-- The transposition-counting walk: for each matched position of `s1` in
order, advance to the next matched position of `s2` and compare the
characters; returns the raw mismatch count (Python's `t` before `t /= 2`). -/
def jaroTrans (s1 s2 : List Char) (s1m s2m : List Bool) : ℕ :=
  ((List.range s1.length).foldl
    (fun (st : ℕ × ℕ) i =>
      if s1m.getD i false then
        let k := findTrue s2m (s2m.length - st.2) st.2
        (st.1 + (if s1.getD i ' ' = s2.getD k ' ' then 0 else 1), k + 1)
      else st)
    (0, 0)).1

/-- `_jaro_similarity(s1, s2)`. -/
def jaro (s1 s2 : List Char) : ℚ :=
  if s1 = s2 then 1
  else if s1.length = 0 ∨ s2.length = 0 then 0
  else
    let d : ℤ := (max s1.length s2.length : ℤ) / 2 - 1
    let res := jaroMatch s1 s2 d
    let m := res.2.2
    if m = 0 then 0
    else
      let t : ℚ := (jaroTrans s1 s2 res.1 res.2.1 : ℚ) / 2
      ((m : ℚ) / s1.length + (m : ℚ) / s2.length + ((m : ℚ) - t) / m) / 3

/-! ## Phonetic normalization (`_create_phonetic_map`, `normalize_phonetic`) -/

/-- The ordered phonetic substitution table (`self.phonetic_map`):
Python 3.7+ dicts iterate in insertion order, so the replacement order is
exactly this list. -/
def phoneticMap : List (List Char × List Char) :=
  [("aa".toList, "a".toList), ("aaa".toList, "a".toList), ("aaaa".toList, "a".toList),
   ("ee".toList, "e".toList), ("eee".toList, "e".toList), ("eeee".toList, "e".toList),
   ("ii".toList, "i".toList), ("iii".toList, "i".toList), ("iiii".toList, "i".toList),
   ("oo".toList, "o".toList), ("ooo".toList, "o".toList), ("oooo".toList, "o".toList),
   ("uu".toList, "u".toList), ("uuu".toList, "u".toList), ("uuuu".toList, "u".toList),
   ("ph".toList, "f".toList), ("gh".toList, "g".toList), ("kh".toList, "k".toList),
   ("th".toList, "t".toList), ("ch".toList, "c".toList), ("sh".toList, "s".toList),
   ("zh".toList, "z".toList),
   ("bb".toList, "b".toList), ("cc".toList, "c".toList), ("dd".toList, "d".toList),
   ("ff".toList, "f".toList), ("gg".toList, "g".toList), ("hh".toList, "h".toList),
   ("jj".toList, "j".toList), ("kk".toList, "k".toList), ("ll".toList, "l".toList),
   ("mm".toList, "m".toList), ("nn".toList, "n".toList), ("pp".toList, "p".toList),
   ("qq".toList, "q".toList), ("rr".toList, "r".toList), ("ss".toList, "s".toList),
   ("tt".toList, "t".toList), ("vv".toList, "v".toList), ("ww".toList, "w".toList),
   ("xx".toList, "x".toList), ("yy".toList, "y".toList), ("zz".toList, "z".toList)]

/-- Python `str.replace(pat, rep)`: replace all non-overlapping occurrences
left to right (our patterns are always non-empty).  Fuel = length of the
remaining string, which strictly decreases. -/
def strReplaceAux (pat rep : List Char) : ℕ → List Char → List Char
  | 0, s => s
  | fuel + 1, s =>
    match s with
    | [] => []
    | c :: rest =>
      if pat ≠ [] ∧ pat.isPrefixOf (c :: rest) then
        rep ++ strReplaceAux pat rep fuel ((c :: rest).drop pat.length)
      else c :: strReplaceAux pat rep fuel rest

/-- Python `s.replace(pat, rep)` for non-empty `pat`. -/
def strReplace (s pat rep : List Char) : List Char := strReplaceAux pat rep s.length s

/-- Is `c` one of the five vowels of the cleanup regexes? -/
def isVowel (c : Char) : Bool := c ∈ ['a', 'e', 'i', 'o', 'u']

/-- Is `c` in the consonant class `[bcdfghjklmnpqrstvwxyz]`? -/
def isCons (c : Char) : Bool := c ∈ "bcdfghjklmnpqrstvwxyz".toList

/-- Model of the two cleanup substitutions
`re.sub(r'([aeiou])\1{2,}', r'\1\1', w)` (cap 2) and
`re.sub(r'([bcdfghjklmnpqrstvwxyz])\1+', r'\1', w)` (cap 1): each maximal
run of identical characters of the class is cut down to at most `cap`
occurrences (leftmost matches of those patterns are exactly the maximal
runs exceeding the cap).  Fuel = remaining length. -/
def collapseRunsAux (p : Char → Bool) (cap : ℕ) : ℕ → List Char → List Char
  | 0, s => s
  | fuel + 1, s =>
    match s with
    | [] => []
    | c :: rest =>
      if p c then
        let run := rest.takeWhile (· == c)
        List.replicate (min (run.length + 1) cap) c ++
          collapseRunsAux p cap fuel (rest.dropWhile (· == c))
      else c :: collapseRunsAux p cap fuel rest

/-- Collapse maximal runs of identical `p`-characters to at most `cap`. -/
def collapseRuns (p : Char → Bool) (cap : ℕ) (s : List Char) : List Char :=
  collapseRunsAux p cap s.length s

/-- `normalize_phonetic(word)`: lowercase, apply the substitution table in
order, then the two run-collapsing cleanups. -/
def normalize_phonetic (word : List Char) : List Char :=
  let w := phoneticMap.foldl (fun s pr => strReplace s pr.1 pr.2) (lowerStr word)
  collapseRuns isCons 1 (collapseRuns isVowel 2 w)

/-! ## `calculate_similarity_score` (lines 92–107)

The only failure point of the Python function is `ld / max(len(w1), len(w2))`,
which raises `ZeroDivisionError` when both tokens are empty; that case is
modelled as `none`.  (It is in fact unreachable: two empty tokens are equal
after lowercasing and hit the 1.0 short-circuit — see
`calculate_similarity_score_total`.) -/

/-- The composite similarity score; `none` models the (unreachable)
`ZeroDivisionError` of the length-penalty division. -/
def calculate_similarity_score (w1 w2 : List Char) : Option ℚ :=
  if lowerStr w1 = lowerStr w2 then some 1
  else if max w1.length w2.length = 0 then none
  else
    let seq_sim := ratioQ (lowerStr w1) (lowerStr w2)
    let phon_sim := ratioQ (normalize_phonetic w1) (normalize_phonetic w2)
    let lp : ℚ := 1 - ((max w1.length w2.length - min w1.length w2.length : ℕ) : ℚ)
      / ((max w1.length w2.length : ℕ) : ℚ)
    let j := jaro (lowerStr w1) (lowerStr w2)
    some (seq_sim * (3 / 10) + phon_sim * (4 / 10) + lp * (1 / 10) + j * (2 / 10))

/-- The value of the (always-defined) similarity score, as a total
function; `simScore_eq` below shows `calculate_similarity_score` always
returns `some` of it. -/
def simScore (w1 w2 : List Char) : ℚ :=
  if lowerStr w1 = lowerStr w2 then 1
  else
    ratioQ (lowerStr w1) (lowerStr w2) * (3 / 10)
      + ratioQ (normalize_phonetic w1) (normalize_phonetic w2) * (4 / 10)
      + (1 - ((max w1.length w2.length - min w1.length w2.length : ℕ) : ℚ)
          / ((max w1.length w2.length : ℕ) : ℚ)) * (1 / 10)
      + jaro (lowerStr w1) (lowerStr w2) * (2 / 10)

/-! ## The corrector state and `find_best_match` (lines 7–15, 35–47, 109–121)

`self.reference_words` is a Python `set`; its iteration order is an
implementation artifact, so it is modelled as a list (first-insertion
order for `buildCorrector`; the order-sensitive theorems quantify over
arbitrary lists).  `self.word_variants` is a `defaultdict(list)` mapping a
lowercase form to the originally-cased words appended in load order. -/

/-- The state of a `NonEnglishSpellCorrector` after loading. -/
structure Corrector where
  reference_words : List Token
  word_variants : List (Token × List Token)
deriving Repr, DecidableEq

/-- `self.word_variants[k]` append of `w` (a `defaultdict(list)`:
a missing key starts from the empty list). -/
def addVariant : List (Token × List Token) → Token → Token → List (Token × List Token)
  | [], k, w => [(k, [w])]
  | e :: m, k, w =>
    if e.1 = k then (k, e.2 ++ [w]) :: m else e :: addVariant m k w

/-- Looking a key up in the variants map (`lw in self.word_variants`, and
the associated list; `in` on a `defaultdict` does not insert). -/
def lookupVariants (m : List (Token × List Token)) (k : Token) : Option (List Token) :=
  (m.find? (fun e => e.1 == k)).map (·.2)

/-- Processing one (non-empty, stripped) line of the reference file:
`self.reference_words.add(word)` and
`self.word_variants[word.lower()].append(word)`. -/
def addWord (c : Corrector) (w : Token) : Corrector :=
  { reference_words :=
      if w ∈ c.reference_words then c.reference_words else c.reference_words ++ [w],
    word_variants := addVariant c.word_variants (lowerStr w) w }

/-- `load_reference_dictionary`, restricted to its in-memory effect: fold
the (already stripped, non-empty) lines of the reference file into the
corrector state. -/
def buildCorrector (words : List Token) : Corrector :=
  words.foldl addWord ⟨[], []⟩

/-- One step of the scanning loop of `find_best_match`: a candidate
replaces the current best iff `score >= threshold and score > best_score`. -/
def scanStep (score : Token → Token → Option ℚ) (q : Token) (θ : ℚ)
    (st : Token × ℚ) (r : Token) : Option (Token × ℚ) :=
  (score q r).map (fun s => if θ ≤ s ∧ st.2 < s then (r, s) else st)

/-- `find_best_match`, parametrized by the scoring function (the exact
case-insensitive hit returns `self.word_variants[lw][0]` without consulting
the scorer at all — made literal here by the quantification over `score`).
`none` models an uncaught Python exception. -/
def findBestMatchWith (score : Token → Token → Option ℚ)
    (c : Corrector) (q : Token) (θ : ℚ) : Option Token :=
  match lookupVariants c.word_variants (lowerStr q) with
  | some vs => vs.head?
  | none => (c.reference_words.foldlM (scanStep score q θ) (q, 0)).map (·.1)

/-- `find_best_match(error_word, threshold)` of the source. -/
def find_best_match (c : Corrector) (q : Token) (θ : ℚ) : Option Token :=
  findBestMatchWith calculate_similarity_score c q θ

/-- Total counterpart of the scanning loop, on the always-defined score. -/
def scanBest (q : Token) (θ : ℚ) (ws : List Token) (st : Token × ℚ) : Token × ℚ :=
  ws.foldl
    (fun st r => let s := simScore q r; if θ ≤ s ∧ st.2 < s then (r, s) else st) st

/-- Invariant of the `j2len` dictionary after `n` rows: an entry is at most
the number of rows processed and at most the in-window width ending at its
column. -/
def J2Inv (blo n : ℕ) (f : ℕ → ℕ) : Prop := ∀ j, f j ≤ n ∧ f j ≤ j + 1 - blo

/-- Invariant of the running best block `(besti, bestj, bestsize)`: it lies
inside the window `[alo, ahi) × [blo, bhi)`. -/
def BestInv (alo ahi blo bhi : ℕ) (t : ℕ × ℕ × ℕ) : Prop :=
  alo ≤ t.1 ∧ blo ≤ t.2.1 ∧ t.1 + t.2.2 ≤ ahi ∧ t.2.1 + t.2.2 ≤ bhi

/-! ## Lemmas: the longest-match block stays inside its window -/

lemma mem_rowIndices {a b : List Char} {blo bhi i j : ℕ}
    (h : j ∈ rowIndices a b blo bhi i) : blo ≤ j ∧ j < bhi := by
  unfold rowIndices at h
  have := List.of_mem_filter h
  simpa using this

lemma rowStep_inv {alo ahi blo bhi n i : ℕ} {f : ℕ → ℕ} {best : ℕ × ℕ × ℕ} {j : ℕ}
    (hf : J2Inv blo n f) (hb : BestInv alo ahi blo bhi best)
    (hi1 : alo + n = i) (hi2 : i < ahi) (hj : blo ≤ j ∧ j < bhi) :
    BestInv alo ahi blo bhi (rowStep f i best j) := by
  unfold rowStep
  set knat := (if j = 0 then 0 else f (j - 1)) + 1 with hkdef
  have hk1 : knat ≤ n + 1 := by
    by_cases h0 : j = 0
    · rw [hkdef, if_pos h0]
      omega
    · rw [hkdef, if_neg h0]
      have := (hf (j - 1)).1
      omega
  have hk2 : knat ≤ j + 1 - blo := by
    by_cases h0 : j = 0
    · rw [hkdef, if_pos h0]
      omega
    · rw [hkdef, if_neg h0]
      have := (hf (j - 1)).2
      omega
  by_cases hlt : best.2.2 < knat
  · rw [if_pos hlt]
    unfold BestInv
    dsimp only
    omega
  · simpa [if_neg hlt] using hb

lemma rowFold_inv {alo ahi blo bhi n i : ℕ} {f : ℕ → ℕ}
    (hf : J2Inv blo n f) (hi1 : alo + n = i) (hi2 : i < ahi) (js : List ℕ)
    (hjs : ∀ j ∈ js, blo ≤ j ∧ j < bhi) :
    ∀ best, BestInv alo ahi blo bhi best →
      BestInv alo ahi blo bhi (js.foldl (rowStep f i) best) := by
  induction js with
  | nil => intro best hb; exact hb
  | cons j js ih =>
    intro best hb
    exact ih (fun j' hj' => hjs j' (by simp [hj'])) _
      (rowStep_inv hf hb hi1 hi2 (hjs j (by simp)))

lemma rowJ2len_inv {blo n : ℕ} {f : ℕ → ℕ} (hf : J2Inv blo n f)
    (js : List ℕ) (hjs : ∀ j ∈ js, blo ≤ j) :
    J2Inv blo (n + 1) (rowJ2len f js) := by
  intro j
  unfold rowJ2len
  by_cases hmem : j ∈ js
  · simp only [if_pos hmem]
    have hbl := hjs j hmem
    by_cases h0 : j = 0
    · rw [if_pos h0]
      omega
    · have h1 := (hf (j - 1)).1
      have h2 := (hf (j - 1)).2
      rw [if_neg h0]
      omega
  · simp [if_neg hmem]

lemma flmLoop_inv (a b : List Char) (alo blo ahi bhi : ℕ)
    (h1 : alo ≤ ahi) (h2 : blo ≤ bhi) :
    BestInv alo ahi blo bhi (flmLoop a b alo ahi blo bhi).2 := by
  suffices h : ∀ n, alo + n ≤ ahi →
      J2Inv blo n ((List.range' alo n).foldl
        (fun st i =>
          let js := rowIndices a b blo bhi i
          (rowJ2len st.1 js, js.foldl (rowStep st.1 i) st.2))
        (fun _ => 0, (alo, blo, 0))).1 ∧
      BestInv alo ahi blo bhi ((List.range' alo n).foldl
        (fun st i =>
          let js := rowIndices a b blo bhi i
          (rowJ2len st.1 js, js.foldl (rowStep st.1 i) st.2))
        (fun _ => 0, (alo, blo, 0))).2 by
    exact (h (ahi - alo) (by omega)).2
  intro n
  induction n with
  | zero =>
    intro _
    constructor
    · show J2Inv blo 0 (fun _ => 0)
      exact fun j => ⟨Nat.le_refl 0, Nat.zero_le _⟩
    · show BestInv alo ahi blo bhi (alo, blo, 0)
      unfold BestInv
      dsimp only
      omega
  | succ n ih =>
    intro hn
    have hn' : alo + n ≤ ahi := by omega
    obtain ⟨ihJ, ihB⟩ := ih hn'
    have hconcat : List.range' alo (n + 1) = List.range' alo n ++ [alo + n] := by
      simpa using @List.range'_concat 1 alo n
    rw [hconcat, List.foldl_append]
    constructor
    · exact rowJ2len_inv ihJ _ (fun j hj => (mem_rowIndices hj).1)
    · exact rowFold_inv ihJ rfl (by omega) _ (fun j hj => mem_rowIndices hj) _ ihB

lemma extendFront_inv (a b : List Char) (alo ahi blo bhi : ℕ) :
    ∀ besti bestj bestsize, BestInv alo ahi blo bhi (besti, bestj, bestsize) →
      BestInv alo ahi blo bhi (extendFront a b alo blo besti bestj bestsize) := by
  intro besti
  induction besti with
  | zero =>
    intro bestj bestsize h
    simpa [extendFront] using h
  | succ bi ih =>
    intro bestj bestsize h
    rw [extendFront]
    by_cases hc : alo < bi + 1 ∧ blo < bestj ∧
        a.getD bi ' ' = b.getD (bestj - 1) ' '
    · rw [if_pos hc]
      apply ih
      unfold BestInv at h ⊢
      dsimp only at h ⊢
      omega
    · rw [if_neg hc]
      exact h

lemma extendBack_le (a b : List Char) (ahi bhi besti bestj : ℕ) :
    ∀ fuel bestsize, besti + bestsize ≤ ahi → bestj + bestsize ≤ bhi →
      besti + extendBack a b ahi bhi besti bestj fuel bestsize ≤ ahi ∧
      bestj + extendBack a b ahi bhi besti bestj fuel bestsize ≤ bhi := by
  intro fuel
  induction fuel with
  | zero =>
    intro bs h1 h2
    simpa [extendBack] using ⟨h1, h2⟩
  | succ f ih =>
    intro bs h1 h2
    rw [extendBack]
    by_cases hc : besti + bs < ahi ∧ bestj + bs < bhi ∧
        a.getD (besti + bs) ' ' = b.getD (bestj + bs) ' '
    · rw [if_pos hc]
      exact ih (bs + 1) (by omega) (by omega)
    · rw [if_neg hc]
      exact ⟨h1, h2⟩

lemma flm_bounds (a b : List Char) (alo ahi blo bhi : ℕ)
    (h1 : alo ≤ ahi) (h2 : blo ≤ bhi) :
    alo ≤ (find_longest_match a b alo ahi blo bhi).1 ∧
    blo ≤ (find_longest_match a b alo ahi blo bhi).2.1 ∧
    (find_longest_match a b alo ahi blo bhi).1
      + (find_longest_match a b alo ahi blo bhi).2.2 ≤ ahi ∧
    (find_longest_match a b alo ahi blo bhi).2.1
      + (find_longest_match a b alo ahi blo bhi).2.2 ≤ bhi := by
  unfold find_longest_match
  have hL := flmLoop_inv a b alo blo ahi bhi h1 h2
  set best := (flmLoop a b alo ahi blo bhi).2 with hbest
  have hF := extendFront_inv a b alo ahi blo bhi best.1 best.2.1 best.2.2 hL
  set f := extendFront a b alo blo best.1 best.2.1 best.2.2 with hf
  obtain ⟨hf1, hf2, hf3, hf4⟩ := hF
  have hB := extendBack_le a b ahi bhi f.1 f.2.1 (ahi - (f.1 + f.2.2)) f.2.2 hf3 hf4
  exact ⟨hf1, hf2, hB.1, hB.2⟩

lemma matchSumAux_le (a b : List Char) :
    ∀ fuel alo ahi blo bhi, alo ≤ ahi → blo ≤ bhi →
      matchSumAux a b fuel alo ahi blo bhi ≤ min (ahi - alo) (bhi - blo) := by
  intro fuel
  induction fuel with
  | zero =>
    intros
    simp [matchSumAux]
  | succ f ih =>
    intro alo ahi blo bhi h1 h2
    have hb := flm_bounds a b alo ahi blo bhi h1 h2
    rw [matchSumAux]
    set m := find_longest_match a b alo ahi blo bhi with hm
    by_cases hk : m.2.2 = 0
    · simp [hk]
    · rw [if_neg hk]
      have hs1 : (if alo < m.1 ∧ blo < m.2.1 then
          matchSumAux a b f alo m.1 blo m.2.1 else 0) ≤ min (m.1 - alo) (m.2.1 - blo) := by
        by_cases hg : alo < m.1 ∧ blo < m.2.1
        · rw [if_pos hg]
          exact ih alo m.1 blo m.2.1 (by omega) (by omega)
        · simp [if_neg hg]
      have hs2 : (if m.1 + m.2.2 < ahi ∧ m.2.1 + m.2.2 < bhi then
          matchSumAux a b f (m.1 + m.2.2) ahi (m.2.1 + m.2.2) bhi else 0)
            ≤ min (ahi - (m.1 + m.2.2)) (bhi - (m.2.1 + m.2.2)) := by
        by_cases hg : m.1 + m.2.2 < ahi ∧ m.2.1 + m.2.2 < bhi
        · rw [if_pos hg]
          exact ih (m.1 + m.2.2) ahi (m.2.1 + m.2.2) bhi (by omega) (by omega)
        · simp [if_neg hg]
      obtain ⟨hb1, hb2, hb3, hb4⟩ := hb
      omega

lemma matchSum_le (a b : List Char) :
    2 * matchSum a b ≤ a.length + b.length := by
  have h := matchSumAux_le a b (a.length + b.length) 0 a.length 0 b.length
    (by omega) (by omega)
  unfold matchSum
  omega

lemma ratioQ_nonneg (a b : List Char) : 0 ≤ ratioQ a b := by
  unfold ratioQ
  by_cases h : a.length + b.length = 0
  · simp [h]
  · rw [if_neg h]
    apply div_nonneg
    · positivity
    · positivity

lemma ratioQ_le_one (a b : List Char) : ratioQ a b ≤ 1 := by
  unfold ratioQ
  by_cases h : a.length + b.length = 0
  · simp [h]
  · rw [if_neg h]
    have hpos : (0 : ℚ) < (a.length : ℚ) + (b.length : ℚ) := by
      have h2 : 0 < a.length + b.length := Nat.pos_of_ne_zero h
      exact_mod_cast h2
    rw [div_le_one hpos]
    have h3 := matchSum_le a b
    exact_mod_cast h3

/-! ## Lemmas: the Jaro similarity lies in `[0, 1]` -/

lemma getD_true_lt_length {l : List Bool} {n : ℕ} (h : l.getD n true = false) :
    n < l.length := by
  by_contra hc
  push_neg at hc
  rw [List.getD_eq_default] at h
  · simp at h
  · exact hc

lemma count_true_set (l : List Bool) (j : ℕ) (h : l.getD j true = false) :
    (l.set j true).count true = l.count true + 1 := by
  induction l generalizing j with
  | nil => simp at h
  | cons x xs ih =>
    cases j with
    | zero =>
      rw [List.getD_cons_zero] at h
      subst h
      simp [List.count_cons]
    | succ n =>
      rw [List.getD_cons_succ] at h
      have := ih n h
      simp only [List.set_cons_succ, List.count_cons, this]
      omega

lemma findJ_some {c : Char} {s2 : List Char} {s2m : List Bool} {lo hi j : ℕ}
    (h : findJ c s2 s2m lo hi = some j) :
    s2m.getD j true = false ∧ s2.getD j ' ' = c ∧ lo ≤ j ∧ j < hi := by
  unfold findJ at h
  have hp := List.find?_some h
  have hm := List.mem_of_find?_eq_some h
  rw [List.mem_range'_1] at hm
  simp only [Bool.and_eq_true, Bool.not_eq_true', beq_iff_eq] at hp
  exact ⟨hp.1, hp.2, hm.1, by omega⟩

lemma jaroMatchLoop_inv (s1 s2 : List Char) (d : ℤ) (is : List ℕ) :
    ∀ st : List Bool × List Bool × ℕ,
      st.2.1.length = s2.length → st.1.count true = st.2.2 →
      st.2.1.count true = st.2.2 →
      (is.foldl (jaroMatchStep s1 s2 d) st).2.1.length = s2.length ∧
      (is.foldl (jaroMatchStep s1 s2 d) st).1.count true
        = (is.foldl (jaroMatchStep s1 s2 d) st).2.2 ∧
      (is.foldl (jaroMatchStep s1 s2 d) st).2.1.count true
        = (is.foldl (jaroMatchStep s1 s2 d) st).2.2 ∧
      (is.foldl (jaroMatchStep s1 s2 d) st).1.length = st.1.length + is.length := by
  induction is with
  | nil =>
    intro st h1 h2 h3
    exact ⟨h1, h2, h3, by simp⟩
  | cons i is ih =>
    intro st h1 h2 h3
    have hstep : ((jaroMatchStep s1 s2 d st i).2.1.length = s2.length ∧
        (jaroMatchStep s1 s2 d st i).1.count true = (jaroMatchStep s1 s2 d st i).2.2 ∧
        (jaroMatchStep s1 s2 d st i).2.1.count true = (jaroMatchStep s1 s2 d st i).2.2) ∧
        (jaroMatchStep s1 s2 d st i).1.length = st.1.length + 1 := by
      unfold jaroMatchStep
      cases hfind : findJ (s1.getD i ' ') s2 st.2.1 (jaroLo i d) (jaroHi i d s2.length) with
      | none =>
        refine ⟨⟨h1, ?_, h3⟩, by simp⟩
        simp [h2]
      | some j =>
        obtain ⟨hflag, _, _, _⟩ := findJ_some hfind
        refine ⟨⟨by simp [h1], ?_, ?_⟩, by simp⟩
        · simp [h2]
        · rw [count_true_set st.2.1 j hflag, h3]
    have := ih (jaroMatchStep s1 s2 d st i) hstep.1.1 hstep.1.2.1 hstep.1.2.2
    simp only [List.foldl_cons]
    exact ⟨this.1, this.2.1, this.2.2.1, by rw [this.2.2.2, hstep.2]; simp; omega⟩

lemma jaroMatch_inv (s1 s2 : List Char) (d : ℤ) :
    (jaroMatch s1 s2 d).2.1.length = s2.length ∧
    (jaroMatch s1 s2 d).1.count true = (jaroMatch s1 s2 d).2.2 ∧
    (jaroMatch s1 s2 d).2.1.count true = (jaroMatch s1 s2 d).2.2 ∧
    (jaroMatch s1 s2 d).1.length = s1.length := by
  have := jaroMatchLoop_inv s1 s2 d (List.range s1.length)
    ([], List.replicate s2.length false, 0) (by simp) (by simp)
    (by rw [List.count_eq_zero]; simp)
  unfold jaroMatch
  refine ⟨this.1, this.2.1, this.2.2.1, ?_⟩
  rw [this.2.2.2]
  simp

lemma jaroTrans_le_countP (s1 s2 : List Char) (s1m s2m : List Bool) :
    jaroTrans s1 s2 s1m s2m
      ≤ (List.range s1.length).countP (fun i => s1m.getD i false) := by
  unfold jaroTrans
  suffices h : ∀ (is : List ℕ) (t0 k0 : ℕ),
      (is.foldl
        (fun (st : ℕ × ℕ) i =>
          if s1m.getD i false then
            (st.1 + (if s1.getD i ' ' = s2.getD (findTrue s2m (s2m.length - st.2) st.2) ' '
              then 0 else 1), findTrue s2m (s2m.length - st.2) st.2 + 1)
          else st)
        (t0, k0)).1 ≤ t0 + is.countP (fun i => s1m.getD i false) by
    simpa using h (List.range s1.length) 0 0
  intro is
  induction is with
  | nil =>
    intro t0 k0
    simp
  | cons i is ih =>
    intro t0 k0
    simp only [List.foldl_cons, List.countP_cons]
    cases hb : s1m.getD i false with
    | true =>
      by_cases hc : s1.getD i ' ' = s2.getD (findTrue s2m (s2m.length - k0) k0) ' '
      · have h2 := ih (t0 + 0) (findTrue s2m (s2m.length - k0) k0 + 1)
        simp only [hb, hc, if_true] at h2 ⊢
        simp at h2 ⊢
        omega
      · have h2 := ih (t0 + 1) (findTrue s2m (s2m.length - k0) k0 + 1)
        simp only [hb, if_true, if_neg hc] at h2 ⊢
        simp at h2 ⊢
        omega
    | false =>
      have h2 := ih t0 k0
      simp only [hb] at h2 ⊢
      simp at h2 ⊢
      omega

lemma countP_range_getD (l : List Bool) :
    (List.range l.length).countP (fun i => l.getD i false) = l.count true := by
  induction l with
  | nil => simp
  | cons x xs ih =>
    have hr : List.range (x :: xs).length = 0 :: (List.range xs.length).map Nat.succ := by
      exact List.range_succ_eq_map xs.length
    rw [hr, List.countP_cons]
    rw [List.countP_map]
    have hcomp : ((fun i => (x :: xs).getD i false) ∘ Nat.succ)
        = (fun i => xs.getD i false) := by
      funext i
      simp [Function.comp, List.getD_cons_succ]
    rw [show ((fun i => (x :: xs).getD i false) ∘ Nat.succ)
      = (fun i => xs.getD i false) from hcomp, ih]
    cases x <;> simp [List.count_cons]

lemma jaro_nonneg (s1 s2 : List Char) : 0 ≤ jaro s1 s2 := by
  unfold jaro
  by_cases h1 : s1 = s2
  · simp [h1]
  · rw [if_neg h1]
    by_cases h2 : s1.length = 0 ∨ s2.length = 0
    · rw [if_pos h2]
    · rw [if_neg h2]
      push_neg at h2
      dsimp only
      set d : ℤ := (max s1.length s2.length : ℤ) / 2 - 1 with hd
      obtain ⟨hlen2, hc1, hc2, hlen1⟩ := jaroMatch_inv s1 s2 d
      set res := jaroMatch s1 s2 d with hres
      by_cases hm : res.2.2 = 0
      · simp [hm]
      · rw [if_neg hm]
        have hml1 : res.2.2 ≤ s1.length := by
          rw [← hc1]
          calc res.1.count true ≤ res.1.length := List.count_le_length _ _
            _ = s1.length := hlen1
        have htr : jaroTrans s1 s2 res.1 res.2.1 ≤ res.2.2 := by
          calc jaroTrans s1 s2 res.1 res.2.1
              ≤ (List.range s1.length).countP (fun i => res.1.getD i false) :=
                jaroTrans_le_countP s1 s2 res.1 res.2.1
            _ = res.1.count true := by rw [← hlen1]; exact countP_range_getD res.1
            _ = res.2.2 := hc1
        have hm1 : (1 : ℚ) ≤ (res.2.2 : ℚ) := by
          exact_mod_cast Nat.one_le_iff_ne_zero.mpr hm
        have hl1 : (0 : ℚ) < (s1.length : ℚ) := by
          exact_mod_cast Nat.pos_of_ne_zero h2.1
        have hl2 : (0 : ℚ) < (s2.length : ℚ) := by
          exact_mod_cast Nat.pos_of_ne_zero h2.2
        have htrq : (jaroTrans s1 s2 res.1 res.2.1 : ℚ) ≤ (res.2.2 : ℚ) := by
          exact_mod_cast htr
        have hA : (0 : ℚ) ≤ (res.2.2 : ℚ) / s1.length := by positivity
        have hB : (0 : ℚ) ≤ (res.2.2 : ℚ) / s2.length := by positivity
        have hC : (0 : ℚ) ≤ ((res.2.2 : ℚ) - (jaroTrans s1 s2 res.1 res.2.1 : ℚ) / 2)
            / (res.2.2 : ℚ) := by
          apply div_nonneg _ (by linarith)
          linarith
        linarith

lemma jaro_le_one (s1 s2 : List Char) : jaro s1 s2 ≤ 1 := by
  unfold jaro
  by_cases h1 : s1 = s2
  · simp [h1]
  · rw [if_neg h1]
    by_cases h2 : s1.length = 0 ∨ s2.length = 0
    · rw [if_pos h2]
      norm_num
    · rw [if_neg h2]
      push_neg at h2
      dsimp only
      set d : ℤ := (max s1.length s2.length : ℤ) / 2 - 1 with hd
      obtain ⟨hlen2, hc1, hc2, hlen1⟩ := jaroMatch_inv s1 s2 d
      set res := jaroMatch s1 s2 d with hres
      by_cases hm : res.2.2 = 0
      · simp [hm]
      · rw [if_neg hm]
        have hml1 : res.2.2 ≤ s1.length := by
          rw [← hc1]
          calc res.1.count true ≤ res.1.length := List.count_le_length _ _
            _ = s1.length := hlen1
        have hml2 : res.2.2 ≤ s2.length := by
          rw [← hc2]
          calc res.2.1.count true ≤ res.2.1.length := List.count_le_length _ _
            _ = s2.length := hlen2
        have hm1 : (1 : ℚ) ≤ (res.2.2 : ℚ) := by
          exact_mod_cast Nat.one_le_iff_ne_zero.mpr hm
        have hl1 : (0 : ℚ) < (s1.length : ℚ) := by
          exact_mod_cast Nat.pos_of_ne_zero h2.1
        have hl2 : (0 : ℚ) < (s2.length : ℚ) := by
          exact_mod_cast Nat.pos_of_ne_zero h2.2
        have htr : (0 : ℚ) ≤ (jaroTrans s1 s2 res.1 res.2.1 : ℚ) := by positivity
        have hA : (res.2.2 : ℚ) / s1.length ≤ 1 := by
          rw [div_le_one hl1]
          exact_mod_cast hml1
        have hB : (res.2.2 : ℚ) / s2.length ≤ 1 := by
          rw [div_le_one hl2]
          exact_mod_cast hml2
        have hC : ((res.2.2 : ℚ) - (jaroTrans s1 s2 res.1 res.2.1 : ℚ) / 2)
            / (res.2.2 : ℚ) ≤ 1 := by
          rw [div_le_one (by linarith)]
          linarith
        linarith

/-! ## Lemmas: the composite score is total and lies in `[0, 1]` -/

lemma calculate_similarity_score_total (w1 w2 : List Char) :
    calculate_similarity_score w1 w2 = some (simScore w1 w2) := by
  unfold calculate_similarity_score simScore
  by_cases h : lowerStr w1 = lowerStr w2
  · simp [h]
  · rw [if_neg h, if_neg h]
    have hmax : ¬ max w1.length w2.length = 0 := by
      intro h0
      apply h
      have h1 : w1.length = 0 := by omega
      have h2 : w2.length = 0 := by omega
      rw [List.length_eq_zero] at h1 h2
      rw [h1, h2]
    rw [if_neg hmax]

lemma simScore_nonneg (w1 w2 : List Char) : 0 ≤ simScore w1 w2 := by
  unfold simScore
  by_cases h : lowerStr w1 = lowerStr w2
  · simp [h]
  · rw [if_neg h]
    have hmax : 0 < max w1.length w2.length := by
      rcases Nat.eq_zero_or_pos (max w1.length w2.length) with h0 | h0
      · exfalso
        apply h
        have h1 : w1.length = 0 := by omega
        have h2 : w2.length = 0 := by omega
        rw [List.length_eq_zero] at h1 h2
        rw [h1, h2]
      · exact h0
    have h1 := ratioQ_nonneg (lowerStr w1) (lowerStr w2)
    have h2 := ratioQ_nonneg (normalize_phonetic w1) (normalize_phonetic w2)
    have h3 := jaro_nonneg (lowerStr w1) (lowerStr w2)
    have hmq : (0 : ℚ) < ((max w1.length w2.length : ℕ) : ℚ) := by
      exact_mod_cast hmax
    have hlp : (0 : ℚ) ≤ 1 - ((max w1.length w2.length - min w1.length w2.length : ℕ) : ℚ)
        / ((max w1.length w2.length : ℕ) : ℚ) := by
      rw [sub_nonneg, div_le_one hmq]
      have : max w1.length w2.length - min w1.length w2.length ≤ max w1.length w2.length := by
        omega
      exact_mod_cast this
    linarith

lemma simScore_le_one (w1 w2 : List Char) : simScore w1 w2 ≤ 1 := by
  unfold simScore
  by_cases h : lowerStr w1 = lowerStr w2
  · simp [h]
  · rw [if_neg h]
    have hmax : 0 < max w1.length w2.length := by
      rcases Nat.eq_zero_or_pos (max w1.length w2.length) with h0 | h0
      · exfalso
        apply h
        have h1 : w1.length = 0 := by omega
        have h2 : w2.length = 0 := by omega
        rw [List.length_eq_zero] at h1 h2
        rw [h1, h2]
      · exact h0
    have h1 := ratioQ_le_one (lowerStr w1) (lowerStr w2)
    have h1' := ratioQ_nonneg (lowerStr w1) (lowerStr w2)
    have h2 := ratioQ_le_one (normalize_phonetic w1) (normalize_phonetic w2)
    have h2' := ratioQ_nonneg (normalize_phonetic w1) (normalize_phonetic w2)
    have h3 := jaro_le_one (lowerStr w1) (lowerStr w2)
    have h3' := jaro_nonneg (lowerStr w1) (lowerStr w2)
    have hmq : (0 : ℚ) < ((max w1.length w2.length : ℕ) : ℚ) := by
      exact_mod_cast hmax
    have hlp : 1 - ((max w1.length w2.length - min w1.length w2.length : ℕ) : ℚ)
        / ((max w1.length w2.length : ℕ) : ℚ) ≤ 1 := by
      have hq : (0 : ℚ) ≤ ((max w1.length w2.length - min w1.length w2.length : ℕ) : ℚ) :=
        Nat.cast_nonneg _
      have := div_nonneg hq (le_of_lt hmq)
      linarith
    linarith

/-! ## Lemmas: behaviour on empty tokens -/

lemma lowerStr_eq_nil_iff (w : List Char) : lowerStr w = [] ↔ w = [] := by
  simp [lowerStr]

lemma strReplaceAux_ne_nil {pat rep : List Char} (hrep : rep ≠ []) :
    ∀ fuel s, s ≠ [] → strReplaceAux pat rep fuel s ≠ [] := by
  intro fuel
  induction fuel with
  | zero =>
    intro s hs
    simpa [strReplaceAux] using hs
  | succ f ih =>
    intro s hs
    cases s with
    | nil => exact absurd rfl hs
    | cons c rest =>
      rw [strReplaceAux]
      by_cases hp : pat ≠ [] ∧ pat.isPrefixOf (c :: rest)
      · rw [if_pos hp]
        simp [List.append_eq_nil, hrep]
      · rw [if_neg hp]
        simp

lemma foldl_strReplace_ne_nil (l : List (List Char × List Char))
    (hl : ∀ pr ∈ l, pr.2 ≠ []) :
    ∀ s, s ≠ [] → l.foldl (fun s pr => strReplace s pr.1 pr.2) s ≠ [] := by
  induction l with
  | nil =>
    intro s hs
    simpa using hs
  | cons pr l ih =>
    intro s hs
    simp only [List.foldl_cons]
    exact ih (fun pr' h' => hl pr' (by simp [h']))
      _ (strReplaceAux_ne_nil (hl pr (by simp)) s.length s hs)

lemma collapseRunsAux_ne_nil (p : Char → Bool) {cap : ℕ} (hcap : 1 ≤ cap) :
    ∀ fuel s, s ≠ [] → collapseRunsAux p cap fuel s ≠ [] := by
  intro fuel
  induction fuel with
  | zero =>
    intro s hs
    simpa [collapseRunsAux] using hs
  | succ f ih =>
    intro s hs
    cases s with
    | nil => exact absurd rfl hs
    | cons c rest =>
      rw [collapseRunsAux]
      by_cases hp : p c
      · rw [if_pos hp]
        simp only [List.append_eq_nil, ne_eq, not_and]
        intro hrep
        exfalso
        have : min ((rest.takeWhile (· == c)).length + 1) cap ≠ 0 := by omega
        simp [List.replicate_eq_nil_iff] at hrep
        omega
      · rw [if_neg hp]
        simp

lemma collapseRuns_ne_nil (p : Char → Bool) {cap : ℕ} (hcap : 1 ≤ cap)
    {s : List Char} (hs : s ≠ []) : collapseRuns p cap s ≠ [] :=
  collapseRunsAux_ne_nil p hcap s.length s hs

lemma normalize_ne_nil {w : List Char} (hw : w ≠ []) : normalize_phonetic w ≠ [] := by
  have hdef : normalize_phonetic w = collapseRuns isCons 1 (collapseRuns isVowel 2
      (phoneticMap.foldl (fun s pr => strReplace s pr.1 pr.2) (lowerStr w))) := rfl
  rw [hdef]
  have h1 : lowerStr w ≠ [] := by
    rw [ne_eq, lowerStr_eq_nil_iff]
    exact hw
  have hmap : ∀ pr ∈ phoneticMap, pr.2 ≠ [] := by decide
  have h2 := foldl_strReplace_ne_nil phoneticMap hmap _ h1
  exact collapseRuns_ne_nil isCons (by norm_num) (collapseRuns_ne_nil isVowel (by norm_num) h2)

lemma extendFront_self (a b : List Char) (alo blo bj bs : ℕ) :
    extendFront a b alo blo alo bj bs = (alo, bj, bs) := by
  cases alo with
  | zero => rfl
  | succ bi =>
    rw [extendFront]
    rw [if_neg]
    intro h
    omega

lemma extendBack_bhi_zero (a b : List Char) (ahi besti bestj : ℕ) :
    ∀ fuel bs, extendBack a b ahi 0 besti bestj fuel bs = bs := by
  intro fuel
  induction fuel with
  | zero =>
    intro bs
    rfl
  | succ f ih =>
    intro bs
    rw [extendBack]
    rw [if_neg]
    intro h
    omega

lemma rowIndices_nil_right (a : List Char) (blo bhi i : ℕ) :
    rowIndices a [] blo bhi i = [] := by
  unfold rowIndices b2j
  split <;> rfl

lemma flmLoop_nil_right (a : List Char) (alo ahi blo bhi : ℕ) :
    (flmLoop a [] alo ahi blo bhi).2 = (alo, blo, 0) := by
  unfold flmLoop
  suffices h : ∀ (rows : List ℕ) (f : ℕ → ℕ) (best : ℕ × ℕ × ℕ),
      ((rows.foldl
        (fun st i =>
          let js := rowIndices a [] blo bhi i
          (rowJ2len st.1 js, js.foldl (rowStep st.1 i) st.2))
        (f, best)).2) = best by
    exact h _ _ _
  intro rows
  induction rows with
  | nil =>
    intro f best
    rfl
  | cons i rows ih =>
    intro f best
    simp only [List.foldl_cons]
    rw [show rowIndices a [] blo bhi i = [] from rowIndices_nil_right a blo bhi i]
    exact ih _ best

lemma matchSumAux_nil_left (b : List Char) :
    ∀ fuel bhi, matchSumAux [] b fuel 0 0 0 bhi = 0 := by
  intro fuel bhi
  cases fuel with
  | zero => rfl
  | succ f =>
    have hm : find_longest_match [] b 0 0 0 bhi = (0, 0, 0) := rfl
    rw [matchSumAux]
    rw [hm]
    simp

lemma matchSumAux_nil_right (a : List Char) :
    ∀ fuel ahi, matchSumAux a [] fuel 0 ahi 0 0 = 0 := by
  intro fuel ahi
  cases fuel with
  | zero => rfl
  | succ f =>
    have hm : (find_longest_match a [] 0 ahi 0 0).2.2 = 0 := by
      unfold find_longest_match
      rw [flmLoop_nil_right]
      dsimp only
      rw [extendFront_self]
      dsimp only
      rw [extendBack_bhi_zero]
    rw [matchSumAux]
    rw [if_pos hm]

lemma ratioQ_nil_left {b : List Char} (hb : b ≠ []) : ratioQ [] b = 0 := by
  unfold ratioQ
  have hlen : ¬ (([] : List Char).length + b.length = 0) := by
    simp [List.length_eq_zero, hb]
  rw [if_neg hlen]
  unfold matchSum
  simp only [List.length_nil, Nat.zero_add]
  rw [matchSumAux_nil_left]
  simp

lemma ratioQ_nil_right {a : List Char} (ha : a ≠ []) : ratioQ a [] = 0 := by
  unfold ratioQ
  have hlen : ¬ (a.length + ([] : List Char).length = 0) := by
    simp [List.length_eq_zero, ha]
  rw [if_neg hlen]
  unfold matchSum
  simp only [List.length_nil, Nat.add_zero]
  rw [matchSumAux_nil_right]
  simp

lemma jaro_nil_left {b : List Char} (hb : b ≠ []) : jaro [] b = 0 := by
  unfold jaro
  rw [if_neg (fun h => hb h.symm), if_pos (by simp)]

lemma jaro_nil_right {a : List Char} (ha : a ≠ []) : jaro a [] = 0 := by
  unfold jaro
  rw [if_neg (fun h => ha h), if_pos (by simp)]

lemma normalize_nil : normalize_phonetic [] = [] := by rfl

lemma simScore_nil_left {b : List Char} (hb : b ≠ []) : simScore [] b = 0 := by
  unfold simScore
  have hlb : lowerStr b ≠ [] := by
    rw [ne_eq, lowerStr_eq_nil_iff]
    exact hb
  have hne : ¬ (lowerStr [] = lowerStr b) := by
    intro h
    exact hlb h.symm
  rw [if_neg hne]
  rw [show lowerStr ([] : List Char) = [] from rfl]
  rw [ratioQ_nil_left hlb]
  rw [normalize_nil]
  rw [ratioQ_nil_left (normalize_ne_nil hb)]
  rw [jaro_nil_left hlb]
  have hmaxmin : max ([] : List Char).length b.length - min ([] : List Char).length b.length
      = b.length := by
    simp
  rw [hmaxmin]
  have hmax : max ([] : List Char).length b.length = b.length := by simp
  rw [hmax]
  have hlq : (b.length : ℚ) ≠ 0 := by
    have : b.length ≠ 0 := by simp [List.length_eq_zero, hb]
    exact_mod_cast this
  rw [div_self hlq]
  ring

lemma simScore_nil_right {b : List Char} (hb : b ≠ []) : simScore b [] = 0 := by
  unfold simScore
  have hlb : lowerStr b ≠ [] := by
    rw [ne_eq, lowerStr_eq_nil_iff]
    exact hb
  have hne : ¬ (lowerStr b = lowerStr []) := by
    intro h
    exact hlb h
  rw [if_neg hne]
  rw [show lowerStr ([] : List Char) = [] from rfl]
  rw [ratioQ_nil_right hlb]
  rw [normalize_nil]
  rw [ratioQ_nil_right (normalize_ne_nil hb)]
  rw [jaro_nil_right hlb]
  have hmaxmin : max b.length ([] : List Char).length - min b.length ([] : List Char).length
      = b.length := by
    simp
  rw [hmaxmin]
  have hmax : max b.length ([] : List Char).length = b.length := by simp
  rw [hmax]
  have hlq : (b.length : ℚ) ≠ 0 := by
    have : b.length ≠ 0 := by simp [List.length_eq_zero, hb]
    exact_mod_cast this
  rw [div_self hlq]
  ring

/-! ## Lemmas: the scanning loop of `find_best_match` -/

lemma scanBest_cons (q : Token) (θ : ℚ) (r : Token) (ws : List Token) (st : Token × ℚ) :
    scanBest q θ (r :: ws) st =
      scanBest q θ ws
        (if θ ≤ simScore q r ∧ st.2 < simScore q r then (r, simScore q r) else st) := rfl

lemma scanBest_append (q : Token) (θ : ℚ) (xs ys : List Token) (st : Token × ℚ) :
    scanBest q θ (xs ++ ys) st = scanBest q θ ys (scanBest q θ xs st) := by
  unfold scanBest
  exact List.foldl_append _ _ _ _

lemma scanBest_snd_mono (q : Token) (θ : ℚ) (ws : List Token) :
    ∀ st : Token × ℚ, st.2 ≤ (scanBest q θ ws st).2 := by
  induction ws with
  | nil =>
    intro st
    exact le_refl _
  | cons r ws ih =>
    intro st
    rw [scanBest_cons]
    by_cases hc : θ ≤ simScore q r ∧ st.2 < simScore q r
    · rw [if_pos hc]
      have h2 := ih (r, simScore q r)
      dsimp only at h2
      linarith [hc.2]
    · rw [if_neg hc]
      exact ih st

lemma scanBest_id (q : Token) (θ : ℚ) (ws : List Token) :
    ∀ st : Token × ℚ, (∀ w ∈ ws, simScore q w < θ ∨ simScore q w ≤ st.2) →
      scanBest q θ ws st = st := by
  induction ws with
  | nil =>
    intro st _
    rfl
  | cons r ws ih =>
    intro st h
    rw [scanBest_cons]
    have hr := h r (by simp)
    have hstep : (if θ ≤ simScore q r ∧ st.2 < simScore q r
        then (r, simScore q r) else st) = st := by
      rw [if_neg]
      rintro ⟨hc1, hc2⟩
      rcases hr with h3 | h3 <;> linarith
    rw [hstep]
    exact ih st (fun w hw => h w (by simp [hw]))

lemma scanBest_final (q : Token) (θ : ℚ) (ws : List Token) :
    ∀ st : Token × ℚ,
      (scanBest q θ ws st = st ∨
        (θ ≤ (scanBest q θ ws st).2 ∧
          ∃ w ∈ ws, (scanBest q θ ws st).1 = w ∧
            (scanBest q θ ws st).2 = simScore q w)) ∧
      (∀ w ∈ ws, θ ≤ simScore q w → simScore q w ≤ (scanBest q θ ws st).2) := by
  induction ws with
  | nil =>
    intro st
    exact ⟨Or.inl rfl, by simp⟩
  | cons r ws ih =>
    intro st
    rw [scanBest_cons]
    by_cases hc : θ ≤ simScore q r ∧ st.2 < simScore q r
    · rw [if_pos hc]
      obtain ⟨hA, hB⟩ := ih (r, simScore q r)
      constructor
      · rcases hA with hA | hA
        · right
          rw [hA]
          exact ⟨hc.1, r, by simp, rfl, rfl⟩
        · right
          obtain ⟨hθ, w, hw, h1, h2⟩ := hA
          exact ⟨hθ, w, by simp [hw], h1, h2⟩
      · intro w hw hθw
        rcases List.mem_cons.mp hw with rfl | hw'
        · have h2 := scanBest_snd_mono q θ ws (w, simScore q w)
          dsimp only at h2
          exact h2
        · exact hB w hw' hθw
    · rw [if_neg hc]
      obtain ⟨hA, hB⟩ := ih st
      constructor
      · rcases hA with hA | hA
        · exact Or.inl hA
        · right
          obtain ⟨hθ, w, hw, h1, h2⟩ := hA
          exact ⟨hθ, w, by simp [hw], h1, h2⟩
      · intro w hw hθw
        rcases List.mem_cons.mp hw with rfl | hw'
        · have hs : simScore q w ≤ st.2 := by
            by_contra hcon
            push_neg at hcon
            exact hc ⟨hθw, hcon⟩
          have h2 := scanBest_snd_mono q θ ws st
          linarith
        · exact hB w hw' hθw

lemma foldlM_scanStep_eq (q : Token) (θ : ℚ) (ws : List Token) :
    ∀ st : Token × ℚ,
      ws.foldlM (scanStep calculate_similarity_score q θ) st
        = some (scanBest q θ ws st) := by
  induction ws with
  | nil =>
    intro st
    rfl
  | cons r ws ih =>
    intro st
    rw [scanBest_cons]
    rw [List.foldlM_cons]
    unfold scanStep
    rw [calculate_similarity_score_total]
    simp only [Option.map_some']
    exact ih _

lemma find_best_match_of_lookup_none {c : Corrector} {q : Token} {θ : ℚ}
    (h : lookupVariants c.word_variants (lowerStr q) = none) :
    find_best_match c q θ = some ((scanBest q θ c.reference_words (q, 0)).1) := by
  unfold find_best_match findBestMatchWith
  rw [h]
  rw [foldlM_scanStep_eq]
  rfl

/-! ## Lemmas: the variants map built by `load_reference_dictionary` -/

lemma lookupVariants_nil (k : Token) : lookupVariants [] k = none := rfl

lemma lookupVariants_cons (e : Token × List Token) (m : List (Token × List Token))
    (k : Token) :
    lookupVariants (e :: m) k = if e.1 = k then some e.2 else lookupVariants m k := by
  unfold lookupVariants
  by_cases h : e.1 = k
  · rw [if_pos h]
    rw [List.find?_cons_of_pos _ (by simp [h])]
    rfl
  · rw [if_neg h]
    rw [List.find?_cons_of_neg _ (by simp [h])]

lemma lookupVariants_addVariant (m : List (Token × List Token)) (kk w : Token) :
    ∀ k, lookupVariants (addVariant m kk w) k =
      if k = kk then some ((lookupVariants m kk).getD [] ++ [w])
      else lookupVariants m k := by
  induction m with
  | nil =>
    intro k
    show lookupVariants [(kk, [w])] k = _
    rw [lookupVariants_cons]
    by_cases h : k = kk
    · rw [h]
      rw [if_pos (rfl : ((kk, [w]) : Token × List Token).1 = kk),
        if_pos (rfl : kk = kk)]
      rfl
    · rw [if_neg (show ¬ ((kk, [w]) : Token × List Token).1 = k from
        fun hh => h hh.symm), if_neg h]
  | cons e m ih =>
    intro k
    by_cases he : e.1 = kk
    · have ha : addVariant (e :: m) kk w = (kk, e.2 ++ [w]) :: m := by
        rw [addVariant, if_pos he]
      by_cases h : k = kk
      · rw [h, ha, lookupVariants_cons, lookupVariants_cons]
        have e1 : ((kk, e.2 ++ [w]) : Token × List Token).1 = kk := rfl
        rw [if_pos e1, if_pos (rfl : kk = kk), if_pos he, Option.getD_some]
      · have h' : ¬ kk = k := fun hh => h hh.symm
        have he' : ¬ e.1 = k := by
          rw [he]
          exact h'
        simp [ha, lookupVariants_cons, h, h', he']
    · have ha : addVariant (e :: m) kk w = e :: addVariant m kk w := by
        rw [addVariant, if_neg he]
      rw [ha, lookupVariants_cons]
      by_cases hek : e.1 = k
      · have hkk : ¬ k = kk := fun h2 => he (hek.trans h2)
        simp [hek, hkk, lookupVariants_cons]
      · rw [if_neg hek, ih k]
        by_cases h : k = kk
        · simp [h, lookupVariants_cons, he]
        · simp [h, lookupVariants_cons, hek]

lemma addVariant_nonempty {m : List (Token × List Token)} {kk w : Token}
    (h : ∀ e ∈ m, e.2 ≠ []) : ∀ e ∈ addVariant m kk w, e.2 ≠ [] := by
  induction m with
  | nil =>
    intro e he
    simp only [addVariant, List.mem_singleton] at he
    subst he
    simp
  | cons x m ih =>
    intro e he
    by_cases hx : x.1 = kk
    · rw [show addVariant (x :: m) kk w = (kk, x.2 ++ [w]) :: m by
        rw [addVariant, if_pos hx]] at he
      rcases List.mem_cons.mp he with rfl | he'
      · simp
      · exact h e (by simp [he'])
    · rw [show addVariant (x :: m) kk w = x :: addVariant m kk w by
        rw [addVariant, if_neg hx]] at he
      rcases List.mem_cons.mp he with rfl | he'
      · exact h e (by simp)
      · exact ih (fun e' h' => h e' (by simp [h'])) e he'

lemma addWord_variants (c : Corrector) (w : Token) :
    (addWord c w).word_variants = addVariant c.word_variants (lowerStr w) w := rfl

lemma foldl_addWord_lookup_head (ws : List Token) :
    ∀ (c : Corrector), (∀ e ∈ c.word_variants, e.2 ≠ []) → ∀ k,
      ((lookupVariants ((ws.foldl addWord c).word_variants) k).bind List.head?) =
        (match (lookupVariants c.word_variants k).bind List.head? with
          | some v => some v
          | none => ws.find? (fun w => lowerStr w == k)) := by
  induction ws with
  | nil =>
    intro c hc k
    simp only [List.foldl_nil, List.find?_nil]
    cases h : (lookupVariants c.word_variants k).bind List.head? <;> rfl
  | cons w ws ih =>
    intro c hc k
    simp only [List.foldl_cons]
    have hc' : ∀ e ∈ (addWord c w).word_variants, e.2 ≠ [] := by
      rw [addWord_variants]
      exact addVariant_nonempty hc
    rw [ih (addWord c w) hc' k]
    have hL := lookupVariants_addVariant c.word_variants (lowerStr w) w k
    rw [addWord_variants, hL]
    by_cases hk : k = lowerStr w
    · rw [if_pos hk]
      cases hold : lookupVariants c.word_variants (lowerStr w) with
      | none =>
        have hold2 : lookupVariants c.word_variants k = none := by
          rw [hk]
          exact hold
        rw [hold2]
        have hfind : (w :: ws).find? (fun w' => lowerStr w' == k) = some w :=
          List.find?_cons_of_pos _ (by simp [hk])
        rw [hfind]
        simp
      | some vs =>
        have hvs : vs ≠ [] := by
          unfold lookupVariants at hold
          cases hfind : c.word_variants.find? (fun e => e.1 == lowerStr w) with
          | none =>
            rw [hfind] at hold
            simp at hold
          | some e =>
            rw [hfind] at hold
            simp only [Option.map_some', Option.some.injEq] at hold
            have hmem := List.mem_of_find?_eq_some hfind
            rw [← hold]
            exact hc e hmem
        have hold2 : lookupVariants c.word_variants k = some vs := by
          rw [hk]
          exact hold
        rw [hold2]
        cases vs with
        | nil => exact absurd rfl hvs
        | cons v vtl => simp
    · rw [if_neg hk]
      have hwk : ¬ lowerStr w = k := fun h => hk h.symm
      have hfind : (w :: ws).find? (fun w' => lowerStr w' == k)
          = ws.find? (fun w' => lowerStr w' == k) :=
        List.find?_cons_of_neg _ (by simp [hwk])
      rw [hfind]

lemma foldl_addWord_lookup_none (ws : List Token) :
    ∀ (c : Corrector) (k : Token),
      lookupVariants ((ws.foldl addWord c).word_variants) k = none ↔
        lookupVariants c.word_variants k = none ∧ ∀ w ∈ ws, lowerStr w ≠ k := by
  induction ws with
  | nil =>
    intro c k
    simp
  | cons w ws ih =>
    intro c k
    simp only [List.foldl_cons]
    rw [ih (addWord c w) k]
    have hL := lookupVariants_addVariant c.word_variants (lowerStr w) w k
    rw [addWord_variants, hL]
    by_cases hk : k = lowerStr w
    · rw [if_pos hk]
      constructor
      · rintro ⟨h1, _⟩
        exact absurd h1 (by simp)
      · rintro ⟨_, h2⟩
        exact absurd hk.symm (h2 w (by simp))
    · rw [if_neg hk]
      constructor
      · rintro ⟨h1, h2⟩
        refine ⟨h1, ?_⟩
        intro w' hw'
        rcases List.mem_cons.mp hw' with rfl | hw''
        · exact fun h => hk h.symm
        · exact h2 w' hw''
      · rintro ⟨h1, h2⟩
        exact ⟨h1, fun w' hw' => h2 w' (by simp [hw'])⟩

lemma buildCorrector_nonempty_variants (ws : List Token) :
    ∀ e ∈ (buildCorrector ws).word_variants, e.2 ≠ [] := by
  unfold buildCorrector
  suffices h : ∀ (c : Corrector), (∀ e ∈ c.word_variants, e.2 ≠ []) →
      ∀ e ∈ (ws.foldl addWord c).word_variants, e.2 ≠ [] by
    exact h ⟨[], []⟩ (by simp)
  induction ws with
  | nil =>
    intro c hc
    simpa using hc
  | cons w ws ih =>
    intro c hc
    simp only [List.foldl_cons]
    refine ih (addWord c w) ?_
    rw [addWord_variants]
    exact addVariant_nonempty hc

lemma mem_foldl_addWord (ws : List Token) :
    ∀ (c : Corrector) (w : Token),
      w ∈ (ws.foldl addWord c).reference_words → w ∈ c.reference_words ∨ w ∈ ws := by
  induction ws with
  | nil =>
    intro c w h
    exact Or.inl h
  | cons x ws ih =>
    intro c w h
    rcases ih (addWord c x) w h with h' | h'
    · unfold addWord at h'
      dsimp only at h'
      by_cases hx : x ∈ c.reference_words
      · rw [if_pos hx] at h'
        exact Or.inl h'
      · rw [if_neg hx] at h'
        rcases List.mem_append.mp h' with h'' | h''
        · exact Or.inl h''
        · simp only [List.mem_singleton] at h''
          subst h''
          exact Or.inr (by simp)
    · exact Or.inr (by simp [h'])

lemma getD_mem_of_lt {l : List Char} {n : ℕ} {d : Char} (h : n < l.length) :
    l.getD n d ∈ l := by
  rw [List.getD_eq_getElem l d h]
  exact List.getElem_mem h

lemma simScore_self (q : Token) : simScore q q = 1 := by
  unfold simScore
  rw [if_pos rfl]

lemma jaroMatch_disjoint (s1 s2 : List Char) (d : ℤ)
    (hdisj : ∀ ch ∈ s1, ch ∉ s2) :
    (jaroMatch s1 s2 d).2.2 = 0 := by
  unfold jaroMatch
  suffices h : ∀ (is : List ℕ), (∀ i ∈ is, i < s1.length) →
      ∀ (s1m s2m : List Bool),
      (is.foldl (jaroMatchStep s1 s2 d) (s1m, s2m, 0)).2.2 = 0 by
    exact h (List.range s1.length) (fun i hi => List.mem_range.mp hi) []
      (List.replicate s2.length false)
  intro is
  induction is with
  | nil =>
    intro _ s1m s2m
    rfl
  | cons i is ih =>
    intro hmem s1m s2m
    simp only [List.foldl_cons]
    have hfind : findJ (s1.getD i ' ') s2 s2m (jaroLo i d) (jaroHi i d s2.length)
        = none := by
      unfold findJ
      rw [List.find?_eq_none]
      intro j hj
      rw [List.mem_range'_1] at hj
      have hjlen : j < s2.length := by
        have h2 : j < jaroHi i d s2.length := by omega
        unfold jaroHi at h2
        omega
      simp only [Bool.and_eq_true, Bool.not_eq_true', beq_iff_eq, not_and]
      intro hflag hchar
      have hc1 : s1.getD i ' ' ∈ s1 := getD_mem_of_lt (hmem i (by simp))
      have hc2 : s2.getD j ' ' ∈ s2 := getD_mem_of_lt hjlen
      rw [hchar] at hc2
      exact hdisj _ hc1 hc2
    unfold jaroMatchStep
    rw [hfind]
    exact ih (fun i' h' => hmem i' (by simp [h'])) _ _

/-! ## The claims -/

/-- C1: for every query token whose lowercase form is a key of the
lowercase-lookup mapping, `find_best_match` returns the first
originally-cased vocabulary token registered for that key, for every
threshold value, and the result does not depend on the scoring function
at all (the exact hit bypasses scoring). -/
theorem spec_c1 (words : List Token) (q : Token) (θ : ℚ) (w0 : Token)
    (h : words.find? (fun w => lowerStr w == lowerStr q) = some w0) :
    (∀ score : Token → Token → Option ℚ,
      findBestMatchWith score (buildCorrector words) q θ = some w0) ∧
    find_best_match (buildCorrector words) q θ = some w0 := by
  have h4 : (lookupVariants ((buildCorrector words).word_variants) (lowerStr q)).bind
      List.head? = words.find? (fun w => lowerStr w == lowerStr q) :=
    foldl_addWord_lookup_head words ⟨[], []⟩ (by simp) (lowerStr q)
  rw [h] at h4
  have hmain : ∀ score : Token → Token → Option ℚ,
      findBestMatchWith score (buildCorrector words) q θ = some w0 := by
    intro score
    unfold findBestMatchWith
    cases hlook : lookupVariants ((buildCorrector words).word_variants) (lowerStr q) with
    | none =>
      rw [hlook] at h4
      simp at h4
    | some vs =>
      rw [hlook] at h4
      simp only [Option.some_bind] at h4
      exact h4
  exact ⟨hmain, hmain calculate_similarity_score⟩

/-- C1 witness: vocabulary `["Ram"]`, query `"RAM"`, threshold `1`;
the match is `"Ram"` even for a scorer that always fails. -/
theorem spec_c1_witness :
    ["Ram".toList].find? (fun w => lowerStr w == lowerStr "RAM".toList)
      = some "Ram".toList ∧
    findBestMatchWith (fun _ _ => none) (buildCorrector ["Ram".toList])
      "RAM".toList 1 = some "Ram".toList ∧
    find_best_match (buildCorrector ["Ram".toList]) "RAM".toList 1
      = some "Ram".toList := by
  have h : ["Ram".toList].find? (fun w => lowerStr w == lowerStr "RAM".toList)
      = some "Ram".toList := by decide
  have h2 := spec_c1 ["Ram".toList] "RAM".toList 1 "Ram".toList h
  exact ⟨h, h2.1 _, h2.2⟩

/-- C2: if the query has no exact case-insensitive hit and every
vocabulary candidate scores below the threshold, `find_best_match`
returns the query unchanged and raises no error (`some`). -/
theorem spec_c2 (c : Corrector) (q : Token) (θ : ℚ)
    (hmiss : lookupVariants c.word_variants (lowerStr q) = none)
    (hall : ∀ w ∈ c.reference_words, simScore q w < θ) :
    find_best_match c q θ = some q := by
  rw [find_best_match_of_lookup_none hmiss]
  rw [scanBest_id q θ c.reference_words (q, 0) (fun w hw => Or.inl (hall w hw))]

/-- C2 witness: vocabulary `["ab"]`, query `"zz"`, threshold `0.6`. -/
theorem spec_c2_witness :
    lookupVariants (buildCorrector ["ab".toList]).word_variants
      (lowerStr "zz".toList) = none ∧
    (∀ w ∈ (buildCorrector ["ab".toList]).reference_words,
      simScore "zz".toList w < 3/5) ∧
    find_best_match (buildCorrector ["ab".toList]) "zz".toList (3/5)
      = some "zz".toList := by
  have h1 : lookupVariants (buildCorrector ["ab".toList]).word_variants
      (lowerStr "zz".toList) = none := by decide
  have h2 : ∀ w ∈ (buildCorrector ["ab".toList]).reference_words,
      simScore "zz".toList w < 3/5 := by with_unfolding_all decide
  exact ⟨h1, h2, spec_c2 _ _ _ h1 h2⟩

/-- C3: in the scan (no exact hit), a later candidate whose score ties an
earlier one never changes the result: deleting it from the vocabulary list
leaves `find_best_match` unchanged, so the earlier candidate wins exact
ties. -/
theorem spec_c3 (c : Corrector) (q : Token) (θ : ℚ)
    (l1 l2 l3 : List Token) (a b : Token)
    (hrefs : c.reference_words = l1 ++ a :: (l2 ++ b :: l3))
    (hmiss : lookupVariants c.word_variants (lowerStr q) = none)
    (heq : simScore q a = simScore q b) :
    find_best_match c q θ
      = find_best_match { c with reference_words := l1 ++ a :: (l2 ++ l3) } q θ := by
  rw [find_best_match_of_lookup_none hmiss,
    @find_best_match_of_lookup_none { c with reference_words := l1 ++ a :: (l2 ++ l3) }
      q θ hmiss]
  suffices h : scanBest q θ (l1 ++ a :: (l2 ++ b :: l3)) (q, 0)
      = scanBest q θ (l1 ++ a :: (l2 ++ l3)) (q, 0) by
    rw [hrefs]
    dsimp only
    rw [h]
  rw [scanBest_append, scanBest_append]
  set st := scanBest q θ l1 (q, 0) with hst0
  rw [scanBest_cons, scanBest_cons]
  set st1 := (if θ ≤ simScore q a ∧ st.2 < simScore q a
    then (a, simScore q a) else st) with hst1
  rw [scanBest_append, scanBest_append, scanBest_cons]
  have hb : (if θ ≤ simScore q b ∧ (scanBest q θ l2 st1).2 < simScore q b
      then (b, simScore q b) else scanBest q θ l2 st1) = scanBest q θ l2 st1 := by
    rw [if_neg]
    rintro ⟨hc1, hc2⟩
    by_cases hθa : θ ≤ simScore q a
    · have h1 : simScore q a ≤ st1.2 := by
        rw [hst1]
        by_cases hcc : θ ≤ simScore q a ∧ st.2 < simScore q a
        · rw [if_pos hcc]
        · rw [if_neg hcc]
          push_neg at hcc
          exact hcc hθa
      have h2 := scanBest_snd_mono q θ l2 st1
      rw [heq] at h1
      linarith
    · rw [← heq] at hc1
      exact hθa hc1
  rw [hb]

/-- C3 witness: query `"cd"`, candidates `"ca"` then `"cb"` tie at score
`7/12 ≥ 1/2`; dropping the later one changes nothing (the earlier wins). -/
theorem spec_c3_witness :
    (⟨["ca".toList, "cb".toList], []⟩ : Corrector).reference_words
      = [] ++ "ca".toList :: ([] ++ "cb".toList :: []) ∧
    lookupVariants (⟨["ca".toList, "cb".toList], []⟩ : Corrector).word_variants
      (lowerStr "cd".toList) = none ∧
    simScore "cd".toList "ca".toList = simScore "cd".toList "cb".toList ∧
    find_best_match (⟨["ca".toList, "cb".toList], []⟩ : Corrector) "cd".toList (1/2)
      = find_best_match (⟨["ca".toList], []⟩ : Corrector) "cd".toList (1/2) := by
  have h1 : (⟨["ca".toList, "cb".toList], []⟩ : Corrector).reference_words
      = [] ++ "ca".toList :: ([] ++ "cb".toList :: []) := rfl
  have h2 : lookupVariants (⟨["ca".toList, "cb".toList], []⟩ : Corrector).word_variants
      (lowerStr "cd".toList) = none := rfl
  have h3 : simScore "cd".toList "ca".toList = simScore "cd".toList "cb".toList := by
    with_unfolding_all decide
  exact ⟨h1, h2, h3,
    spec_c3 ⟨["ca".toList, "cb".toList], []⟩ "cd".toList (1/2)
      [] [] [] "ca".toList "cb".toList h1 h2 h3⟩

/-- C4: the composite scorer is total (never raises) and its value lies in
the closed interval `[0, 1]`, for all inputs including empty strings. -/
theorem spec_c4 (w1 w2 : List Char) :
    calculate_similarity_score w1 w2 = some (simScore w1 w2) ∧
    0 ≤ simScore w1 w2 ∧ simScore w1 w2 ≤ 1 :=
  ⟨calculate_similarity_score_total w1 w2, simScore_nonneg w1 w2,
    simScore_le_one w1 w2⟩

/-- C5 counterexample: the composite scorer is not symmetric — for
`a = "ab"`, `b = "bacb"` it gives `13/20` one way and `5/12` the other
(the sequence-matcher ratio underlying two of the four components depends
on the argument order). -/
theorem spec_c5_counterexample :
    calculate_similarity_score "ab".toList "bacb".toList = some (13/20) ∧
    calculate_similarity_score "bacb".toList "ab".toList = some (5/12) ∧
    calculate_similarity_score "ab".toList "bacb".toList
      ≠ calculate_similarity_score "bacb".toList "ab".toList := by
  have ha : calculate_similarity_score "ab".toList "bacb".toList = some (13/20) := by
    with_unfolding_all decide
  have hb : calculate_similarity_score "bacb".toList "ab".toList = some (5/12) := by
    with_unfolding_all decide
  refine ⟨ha, hb, ?_⟩
  rw [ha, hb]
  simp only [ne_eq, Option.some.injEq]
  norm_num

/-- C5 amended: the scorer is not symmetric in general (see the
counterexample); it is symmetric on every pair for which its
order-sensitive ingredients (the two sequence-matcher ratios and the Jaro
similarity) are order-independent — the equality short-circuit and the
length penalty are symmetric unconditionally. -/
theorem spec_c5_amended (a b : List Char)
    (h1 : ratioQ (lowerStr a) (lowerStr b) = ratioQ (lowerStr b) (lowerStr a))
    (h2 : ratioQ (normalize_phonetic a) (normalize_phonetic b)
        = ratioQ (normalize_phonetic b) (normalize_phonetic a))
    (h3 : jaro (lowerStr a) (lowerStr b) = jaro (lowerStr b) (lowerStr a)) :
    calculate_similarity_score a b = calculate_similarity_score b a := by
  rw [calculate_similarity_score_total, calculate_similarity_score_total,
    Option.some.injEq]
  unfold simScore
  by_cases h : lowerStr a = lowerStr b
  · rw [if_pos h, if_pos h.symm]
  · rw [if_neg h, if_neg (fun hh => h hh.symm)]
    rw [h1, h2, h3]
    rw [Nat.max_comm a.length b.length, Nat.min_comm a.length b.length]

/-- C5 amended witness: `a = "ab"`, `b = "ba"` satisfy the symmetry
side-conditions, and the scores agree. -/
theorem spec_c5_amended_witness :
    ratioQ (lowerStr "ab".toList) (lowerStr "ba".toList)
      = ratioQ (lowerStr "ba".toList) (lowerStr "ab".toList) ∧
    ratioQ (normalize_phonetic "ab".toList) (normalize_phonetic "ba".toList)
      = ratioQ (normalize_phonetic "ba".toList) (normalize_phonetic "ab".toList) ∧
    jaro (lowerStr "ab".toList) (lowerStr "ba".toList)
      = jaro (lowerStr "ba".toList) (lowerStr "ab".toList) ∧
    calculate_similarity_score "ab".toList "ba".toList
      = calculate_similarity_score "ba".toList "ab".toList := by
  have h1 : ratioQ (lowerStr "ab".toList) (lowerStr "ba".toList)
      = ratioQ (lowerStr "ba".toList) (lowerStr "ab".toList) := by
    with_unfolding_all decide
  have h2 : ratioQ (normalize_phonetic "ab".toList) (normalize_phonetic "ba".toList)
      = ratioQ (normalize_phonetic "ba".toList) (normalize_phonetic "ab".toList) := by
    with_unfolding_all decide
  have h3 : jaro (lowerStr "ab".toList) (lowerStr "ba".toList)
      = jaro (lowerStr "ba".toList) (lowerStr "ab".toList) := by
    with_unfolding_all decide
  exact ⟨h1, h2, h3, spec_c5_amended "ab".toList "ba".toList h1 h2 h3⟩

/-- C6: threshold monotonicity — if, on a query with no exact
case-insensitive hit, `find_best_match` at threshold `θ` returns `r`, then
at any threshold strictly above the composite score of `(q, r)` it returns
the query unchanged. -/
theorem spec_c6 (c : Corrector) (q r : Token) (θ θ' : ℚ)
    (hmiss : lookupVariants c.word_variants (lowerStr q) = none)
    (hr : find_best_match c q θ = some r)
    (hθ' : simScore q r < θ') :
    find_best_match c q θ' = some q := by
  rw [find_best_match_of_lookup_none hmiss] at hr
  rw [find_best_match_of_lookup_none hmiss]
  have hfin := scanBest_final q θ c.reference_words (q, 0)
  have hrdef : r = (scanBest q θ c.reference_words (q, 0)).1 := by
    injection hr with hr'
    exact hr'.symm
  have hall : ∀ w ∈ c.reference_words, simScore q w < θ' := by
    intro w hw
    rcases hfin.1 with hA | hA
    · have hrq : r = q := by
        rw [hrdef, hA]
      have h1' : (1 : ℚ) < θ' := by
        rw [hrq, simScore_self] at hθ'
        exact hθ'
      have h2' := simScore_le_one q w
      linarith
    · obtain ⟨hθle, w', hw', h1, h2⟩ := hA
      have hres2 : (scanBest q θ c.reference_words (q, 0)).2 = simScore q r := by
        rw [hrdef, h1, h2]
      by_cases hθw : θ ≤ simScore q w
      · have h3 := hfin.2 w hw hθw
        rw [hres2] at h3
        linarith
      · push_neg at hθw
        rw [hres2] at hθle
        linarith
  rw [scanBest_id q θ' c.reference_words (q, 0) (fun w hw => Or.inl (hall w hw))]

/-- C6 witness: vocabulary `["ab"]`, query `"ac"`.  At `θ = 1/2` the match
is `"ab"` with score `7/12`; at `θ' = 1 > 7/12` the query comes back
unchanged. -/
theorem spec_c6_witness :
    lookupVariants (⟨["ab".toList], []⟩ : Corrector).word_variants
      (lowerStr "ac".toList) = none ∧
    find_best_match (⟨["ab".toList], []⟩ : Corrector) "ac".toList (1/2)
      = some "ab".toList ∧
    simScore "ac".toList "ab".toList < 1 ∧
    find_best_match (⟨["ab".toList], []⟩ : Corrector) "ac".toList 1
      = some "ac".toList := by
  have h1 : lookupVariants (⟨["ab".toList], []⟩ : Corrector).word_variants
      (lowerStr "ac".toList) = none := rfl
  have h2 : find_best_match (⟨["ab".toList], []⟩ : Corrector) "ac".toList (1/2)
      = some "ab".toList := by with_unfolding_all decide
  have h3 : simScore "ac".toList "ab".toList < 1 := by with_unfolding_all decide
  exact ⟨h1, h2, h3, spec_c6 ⟨["ab".toList], []⟩ "ac".toList "ab".toList (1/2) 1 h1 h2 h3⟩

/-- C7 counterexample: on two empty tokens the scorer and the Jaro
similarity both return `1.0`, not `0.0` (the identity short-circuit fires
before the emptiness checks). -/
theorem spec_c7_counterexample :
    calculate_similarity_score ([] : List Char) ([] : List Char) = some 1 ∧
    jaro ([] : List Char) ([] : List Char) = 1 ∧ (1 : ℚ) ≠ 0 := by
  refine ⟨rfl, rfl, by norm_num⟩

/-- C7 amended: an empty token paired with a *non-empty* token (in either
order) is defined, not exceptional, and scores `0.0` in both the composite
scorer and the Jaro similarity; two empty tokens instead take the
identical-tokens short-circuit and score `1.0`. -/
theorem spec_c7_amended (b : List Char) (hb : b ≠ []) :
    calculate_similarity_score [] b = some 0 ∧
    calculate_similarity_score b [] = some 0 ∧
    jaro [] b = 0 ∧ jaro b [] = 0 := by
  refine ⟨?_, ?_, jaro_nil_left hb, jaro_nil_right hb⟩
  · rw [calculate_similarity_score_total, simScore_nil_left hb]
  · rw [calculate_similarity_score_total, simScore_nil_right hb]

/-- C7 amended witness at `b = "x"`. -/
theorem spec_c7_amended_witness :
    "x".toList ≠ ([] : List Char) ∧
    calculate_similarity_score [] "x".toList = some 0 ∧
    calculate_similarity_score "x".toList [] = some 0 ∧
    jaro [] "x".toList = 0 ∧ jaro "x".toList [] = 0 := by
  have hb : "x".toList ≠ ([] : List Char) := by decide
  have h := spec_c7_amended "x".toList hb
  exact ⟨hb, h.1, h.2.1, h.2.2.1, h.2.2.2⟩

/-- C8 counterexample: the two empty strings share no characters, yet the
Jaro similarity returns `1.0` (the `s1 == s2` short-circuit), not `0.0`. -/
theorem spec_c8_counterexample :
    (∀ ch ∈ ([] : List Char), ch ∉ ([] : List Char)) ∧
    jaro ([] : List Char) ([] : List Char) = 1 ∧ (1 : ℚ) ≠ 0 := by
  refine ⟨by simp, rfl, by norm_num⟩

/-- C8 amended: for two strings with no shared characters that are not
both empty, the Jaro similarity is exactly `0.0` (the only
disjoint-character pair that is identical is the pair of empty strings). -/
theorem spec_c8_amended (s1 s2 : List Char)
    (hdisj : ∀ ch ∈ s1, ch ∉ s2) (hne : ¬ (s1 = [] ∧ s2 = [])) :
    jaro s1 s2 = 0 := by
  have hs : s1 ≠ s2 := by
    intro h
    subst h
    cases s1 with
    | nil => exact hne ⟨rfl, rfl⟩
    | cons c s => exact hdisj c (by simp) (by simp)
  unfold jaro
  rw [if_neg hs]
  by_cases hlen : s1.length = 0 ∨ s2.length = 0
  · rw [if_pos hlen]
  · rw [if_neg hlen]
    dsimp only
    rw [if_pos (jaroMatch_disjoint s1 s2 _ hdisj)]

/-- C8 amended witness: `"ab"` and `"cd"` are disjoint and score `0`. -/
theorem spec_c8_amended_witness :
    (∀ ch ∈ "ab".toList, ch ∉ "cd".toList) ∧
    ¬ ("ab".toList = ([] : List Char) ∧ "cd".toList = ([] : List Char)) ∧
    jaro "ab".toList "cd".toList = 0 := by
  have h1 : ∀ ch ∈ "ab".toList, ch ∉ "cd".toList := by decide
  have h2 : ¬ ("ab".toList = ([] : List Char) ∧ "cd".toList = ([] : List Char)) := by
    decide
  exact ⟨h1, h2, spec_c8_amended "ab".toList "cd".toList h1 h2⟩

/-- C9: phonetic convergence — `normalize_phonetic "Gaanga"` and
`normalize_phonetic "Ganga"` produce the same phonetic form. -/
theorem spec_c9 :
    normalize_phonetic "Gaanga".toList = normalize_phonetic "Ganga".toList := by
  decide

/-- C10: for the empty-string query and a vocabulary of non-empty tokens,
`find_best_match` is total (returns `some`, hitting no zero-denominator
division) and leaves the query unchanged, for every threshold. -/
theorem spec_c10 (words : List Token) (θ : ℚ) (hw : ∀ w ∈ words, w ≠ []) :
    find_best_match (buildCorrector words) [] θ = some [] := by
  have hmiss : lookupVariants (buildCorrector words).word_variants
      (lowerStr []) = none := by
    have h2 : lookupVariants ((⟨[], []⟩ : Corrector)).word_variants (lowerStr []) = none ∧
        ∀ w ∈ words, lowerStr w ≠ lowerStr [] := by
      constructor
      · rfl
      · intro w hw'
        rw [show lowerStr ([] : List Char) = [] from rfl, ne_eq, lowerStr_eq_nil_iff]
        exact hw w hw'
    exact (foldl_addWord_lookup_none words ⟨[], []⟩ (lowerStr [])).mpr h2
  rw [find_best_match_of_lookup_none hmiss]
  have hall : ∀ w ∈ (buildCorrector words).reference_words,
      simScore [] w < θ ∨ simScore [] w ≤ (0 : ℚ) := by
    intro w hwm
    right
    have hwne : w ≠ [] := by
      rcases mem_foldl_addWord words ⟨[], []⟩ w hwm with h' | h'
      · exact absurd h' (by simp)
      · exact hw w h'
    rw [simScore_nil_left hwne]
  rw [scanBest_id [] θ (buildCorrector words).reference_words ([], 0) hall]

/-- C10 witness: vocabulary `["Ram"]`, threshold `0.6`. -/
theorem spec_c10_witness :
    (∀ w ∈ ["Ram".toList], w ≠ ([] : List Char)) ∧
    find_best_match (buildCorrector ["Ram".toList]) [] (3/5) = some [] := by
  have h1 : ∀ w ∈ ["Ram".toList], w ≠ ([] : List Char) := by decide
  exact ⟨h1, spec_c10 ["Ram".toList] (3/5) h1⟩

end Spell

